import Mathlib

/-!
Verification of the embedded cipher library (`src/cipher.c`).

The buffer supplied by the caller is modelled as a `List Nat` of byte
values; the C string it holds is the run of bytes before the first null
terminator (byte `0`).  A possibly-NULL `char *` argument is modelled as
`Option (List Nat)`.  All functions of `cipher.c` are translated below,
loop for loop: the split-shift loops become folds of adjacent swaps with
exactly the index ranges of the C `for` loops (including the ranges of
`shift_right_once`, whose two loops each perform one extra swap at the
segment boundary), and the substitution scans stop at the terminator
just as the C loops do.
-/

namespace Cipher

/-- Status codes of `cipher_status_t` in cipher.h. -/
inductive cipher_status_t where
  | success
  | error_null_pointer
  | error_invalid_key
  | error_invalid_length
deriving DecidableEq, Repr

/-- Numeric values assigned to the enumerators in cipher.h. -/
def cipher_status_t.code : cipher_status_t → Int
  | .success => 0
  | .error_null_pointer => -1
  | .error_invalid_key => -2
  | .error_invalid_length => -3

/-- CIPHER_MAX_INPUT_LEN from cipher.h. -/
def CIPHER_MAX_INPUT_LEN : Nat := 10000

/-- CIPHER_TABLE_SIZE from cipher.h. -/
def CIPHER_TABLE_SIZE : Nat := 20

/-- The 20-row substitution table of cipher.c, as (plaintext, ciphertext)
byte pairs: rows for the bytes of 0123456789ABCDEF and then of the four
punctuation symbols, in source order. -/
def SUBSTITUTION_TABLE : List (Nat × Nat) :=
  [(48, 66), (49, 59), (50, 67), (51, 68),
   (52, 58), (53, 70), (54, 69), (55, 57),
   (56, 51), (57, 56), (65, 50), (66, 52),
   (67, 44), (68, 48), (69, 61), (70, 49),
   (58, 65), (44, 55), (61, 53), (59, 54)]

/-- The 20 symbols appearing in the table; the plaintext column and the
ciphertext column both consist exactly of these bytes. -/
def tableSyms : List Nat :=
  [48, 49, 50, 51, 52, 53, 54, 55, 56, 57,
   65, 66, 67, 68, 69, 70, 58, 44, 61, 59]

/-- C strlen: number of bytes before the first null terminator. -/
def strlen (l : List Nat) : Nat := (l.takeWhile (fun c => c ≠ 0)).length

/-- validate_arg from cipher.c: null check, then key check, then length
check, in that order. -/
def validate_arg (str : Option (List Nat)) (key : Int) : cipher_status_t :=
  match str with
  | none => .error_null_pointer
  | some s =>
    if key ≤ 0 then .error_invalid_key
    else if strlen s > CIPHER_MAX_INPUT_LEN then .error_invalid_length
    else .success

/-- One adjacent swap of str[j] and str[j+1], the body of every loop
iteration in the two shift functions. -/
def swapAdj : List Nat → Nat → List Nat
  | [], _ => []
  | [x], _ => [x]
  | a :: b :: t, 0 => b :: a :: t
  | x :: t, j + 1 => x :: swapAdj t j

/-- Ascending swap loop: swaps at positions j, j+1, ..., j+n-1, in that
order (the shape of the two `for` loops of shift_left_once). -/
def swapLoopUp : List Nat → Nat → Nat → List Nat
  | l, _, 0 => l
  | l, j, n + 1 => swapLoopUp (swapAdj l j) (j + 1) n

/-- Descending swap loop: swaps at positions j, j-1, ..., j-n+1, in that
order (the shape of the two `for` loops of shift_right_once). -/
def swapLoopDown : List Nat → Nat → Nat → List Nat
  | l, _, 0 => l
  | l, j, n + 1 => swapLoopDown (swapAdj l j) (j - 1) n

/-- shift_left_once from cipher.c.  mid = (len-1)/2; the first loop runs
j = 0 .. mid-1 swapping (j, j+1); the second runs j = mid+1 .. len-2
swapping (j, j+1). -/
def shift_left_once (l : List Nat) (len : Nat) : List Nat :=
  let mid := (len - 1) / 2
  swapLoopUp (swapLoopUp l 0 mid) (mid + 1) (len - 1 - (mid + 1))

/-- shift_right_once from cipher.c.  mid = (len-1)/2; the first loop runs
j = len-1 down to mid+1 swapping (j-1, j); the second runs j = mid+1 down
to 1 swapping (j-1, j).  Note the second loop always performs at least
one swap, at positions (mid, mid+1), even when len is 0 or 1. -/
def shift_right_once (l : List Nat) (len : Nat) : List Nat :=
  let mid := (len - 1) / 2
  swapLoopDown (swapLoopDown l (len - 2) (len - 1 - mid)) mid (mid + 1)

/-- The inner table scan of substitute_forward: the first row whose
plaintext entry matches the byte, if any. -/
def substChar_fwd (c : Nat) : Nat :=
  match SUBSTITUTION_TABLE.find? (fun p => p.1 == c) with
  | some p => p.2
  | none => c

/-- The inner table scan of substitute_reverse: the first row whose
ciphertext entry matches the byte, if any. -/
def substChar_rev (c : Nat) : Nat :=
  match SUBSTITUTION_TABLE.find? (fun p => p.2 == c) with
  | some p => p.1
  | none => c

/-- substitute_forward from cipher.c: map the first len bytes through the
table, stopping early at a null terminator. -/
def substitute_forward : List Nat → Nat → List Nat
  | l, 0 => l
  | [], _ + 1 => []
  | c :: rest, n + 1 =>
    if c = 0 then c :: rest else substChar_fwd c :: substitute_forward rest n

/-- substitute_reverse from cipher.c. -/
def substitute_reverse : List Nat → Nat → List Nat
  | l, 0 => l
  | [], _ + 1 => []
  | c :: rest, n + 1 =>
    if c = 0 then c :: rest else substChar_rev c :: substitute_reverse rest n

/-- cipher_encrypt from cipher.c: validate, then key left-shift steps,
then forward substitution.  The pair returned is (status, buffer after
the call). -/
def cipher_encrypt (str : Option (List Nat)) (key : Int) :
    cipher_status_t × Option (List Nat) :=
  match str with
  | none => (validate_arg none key, none)
  | some s =>
    if validate_arg (some s) key ≠ .success then (validate_arg (some s) key, some s)
    else
      let len := strlen s
      (.success, some (substitute_forward ((fun l => shift_left_once l len)^[key.toNat] s) len))

/-- cipher_decrypt from cipher.c: validate, then key right-shift steps,
then reverse substitution. -/
def cipher_decrypt (str : Option (List Nat)) (key : Int) :
    cipher_status_t × Option (List Nat) :=
  match str with
  | none => (validate_arg none key, none)
  | some s =>
    if validate_arg (some s) key ≠ .success then (validate_arg (some s) key, some s)
    else
      let len := strlen s
      (.success, some (substitute_reverse ((fun l => shift_right_once l len)^[key.toNat] s) len))

/-- toupper from ctype.h, restricted to byte values: ASCII lowercase
letters are moved down by 32, every other byte is unchanged. -/
def toupper (c : Nat) : Nat := if 97 ≤ c ∧ c ≤ 122 then c - 32 else c

/-- The loop body of cipher_to_uppercase: walk the buffer until the null
terminator, uppercasing in place. -/
def uppercase_str : List Nat → List Nat
  | [] => []
  | c :: rest => if c = 0 then c :: rest else toupper c :: uppercase_str rest

/-- cipher_to_uppercase from cipher.c: a NULL buffer is a no-op. -/
def cipher_to_uppercase : Option (List Nat) → Option (List Nat)
  | none => none
  | some s => some (uppercase_str s)

/-- Left rotation of a sequence by one position: the net effect of one
ascending swap sweep over a whole segment. -/
def rotl : List Nat → List Nat
  | [] => []
  | x :: xs => xs ++ [x]

/-- Right rotation of a sequence by one position, inverse of `rotl`. -/
def rotr (l : List Nat) : List Nat := (rotl l.reverse).reverse

/-- Decryption in the stage order stated by the specification: reverse
substitution applied to the whole string first, then key right-rotation
steps.  (The C code performs the two stages in the opposite order; this
definition follows the words of the spec so the two can be compared.) -/
def decrypt_spec_order (s : List Nat) (key : Nat) : List Nat :=
  let len := strlen s
  (fun l => shift_right_once l len)^[key] (substitute_reverse s len)

/-! ### Basic facts about the swap loops -/

lemma swapAdj_cons (x : Nat) (t : List Nat) (j : Nat) :
    swapAdj (x :: t) (j + 1) = x :: swapAdj t j := by
  cases t <;> rfl

lemma swapAdj_length (l : List Nat) (j : Nat) : (swapAdj l j).length = l.length := by
  induction l generalizing j with
  | nil => rfl
  | cons x t ih =>
    cases t with
    | nil => cases j <;> rfl
    | cons b t2 =>
      cases j with
      | zero => rfl
      | succ j2 =>
        rw [swapAdj_cons]
        simp [ih]

lemma swapAdj_at_append (w : List Nat) (p q : Nat) (v : List Nat) :
    swapAdj (w ++ p :: q :: v) w.length = w ++ q :: p :: v := by
  induction w with
  | nil => rfl
  | cons x w2 ih =>
    have : (x :: w2).length = w2.length + 1 := rfl
    rw [this, List.cons_append, swapAdj_cons, ih]
    rfl

lemma swapLoopUp_length (n : Nat) : ∀ (l : List Nat) (j : Nat),
    (swapLoopUp l j n).length = l.length := by
  induction n with
  | zero => intro l j; rfl
  | succ n ih => intro l j; rw [swapLoopUp, ih, swapAdj_length]

lemma swapLoopDown_length (n : Nat) : ∀ (l : List Nat) (j : Nat),
    (swapLoopDown l j n).length = l.length := by
  induction n with
  | zero => intro l j; rfl
  | succ n ih => intro l j; rw [swapLoopDown, ih, swapAdj_length]

lemma swapLoopUp_cons (n : Nat) : ∀ (j x : Nat) (t : List Nat),
    swapLoopUp (x :: t) (j + 1) n = x :: swapLoopUp t j n := by
  induction n with
  | zero => intro j x t; rfl
  | succ n ih =>
    intro j x t
    rw [swapLoopUp, swapAdj_cons, ih, swapLoopUp]

lemma swapLoopDown_cons (n : Nat) : ∀ (j x : Nat) (t : List Nat), n ≤ j + 1 →
    swapLoopDown (x :: t) (j + 1) n = x :: swapLoopDown t j n := by
  induction n with
  | zero => intro j x t _; rfl
  | succ n ih =>
    intro j x t hn
    rw [swapLoopDown, swapAdj_cons]
    have hj : j + 1 - 1 = j := by omega
    rw [hj]
    cases j with
    | zero =>
      have hn0 : n = 0 := by omega
      subst hn0
      simp [swapLoopDown]
    | succ j2 =>
      rw [ih j2 x (swapAdj t (j2 + 1)) (by omega)]
      rw [show swapLoopDown t (j2 + 1) (n + 1)
            = swapLoopDown (swapAdj t (j2 + 1)) (j2 + 1 - 1) n from rfl]
      norm_num

lemma swapLoopUp_append (u : List Nat) : ∀ (t : List Nat) (j n : Nat),
    swapLoopUp (u ++ t) (u.length + j) n = u ++ swapLoopUp t j n := by
  induction u with
  | nil => intro t j n; simp
  | cons x u2 ih =>
    intro t j n
    have h1 : (x :: u2).length + j = (u2.length + j) + 1 := by simp; omega
    rw [List.cons_append, h1, swapLoopUp_cons, ih, List.cons_append]

lemma swapLoopDown_append (u : List Nat) : ∀ (t : List Nat) (j n : Nat), n ≤ j + 1 →
    swapLoopDown (u ++ t) (u.length + j) n = u ++ swapLoopDown t j n := by
  induction u with
  | nil => intro t j n _; simp
  | cons x u2 ih =>
    intro t j n hn
    have h1 : (x :: u2).length + j = (u2.length + j) + 1 := by simp; omega
    rw [List.cons_append, h1, swapLoopDown_cons _ _ _ _ (by omega), ih _ _ _ hn,
      List.cons_append]

/-! ### The net effect of a full sweep over one segment -/

lemma rotl_length (l : List Nat) : (rotl l).length = l.length := by
  cases l <;> simp [rotl]

lemma rotr_length (l : List Nat) : (rotr l).length = l.length := by
  simp [rotr, rotl_length]

lemma rotr_concat (xs : List Nat) (z : Nat) : rotr (xs ++ [z]) = z :: xs := by
  simp [rotr, rotl, List.reverse_append]

lemma rotr_rotl (l : List Nat) : rotr (rotl l) = l := by
  cases l with
  | nil => rfl
  | cons x xs => rw [rotl, rotr_concat]

lemma rotl_rotr (l : List Nat) : rotl (rotr l) = l := by
  rcases List.eq_nil_or_concat l with rfl | ⟨M, z, hl⟩
  · rfl
  · rw [List.concat_eq_append] at hl
    subst hl
    rw [rotr_concat, rotl]

/-- An ascending sweep of adjacent swaps over a whole segment rotates the
segment left by one position. -/
lemma swapLoopUp_full (n : Nat) : ∀ (u v : List Nat), u.length = n + 1 →
    swapLoopUp (u ++ v) 0 n = rotl u ++ v := by
  induction n with
  | zero =>
    intro u v hu
    match u, hu with
    | [a], _ => rfl
  | succ n ih =>
    intro u v hu
    match u, hu with
    | a :: b :: u2, hu =>
      have hlen : (a :: u2).length = n + 1 := by
        simp at hu ⊢; omega
      calc swapLoopUp ((a :: b :: u2) ++ v) 0 (n + 1)
          = swapLoopUp (b :: (a :: u2) ++ v) 1 n := by
            rw [swapLoopUp]; rfl
        _ = b :: swapLoopUp ((a :: u2) ++ v) 0 n := swapLoopUp_cons n 0 b _
        _ = b :: (rotl (a :: u2) ++ v) := by rw [ih _ v hlen]
        _ = rotl (a :: b :: u2) ++ v := by simp [rotl]

/-- A descending sweep of adjacent swaps over a whole segment (one more
swap than the segment length minus one, reaching position 0) rotates the
segment right by one position. -/
lemma swapLoopDown_full (m : Nat) : ∀ (u v : List Nat), u.length = m + 2 →
    swapLoopDown (u ++ v) m (m + 1) = rotr u ++ v := by
  induction m with
  | zero =>
    intro u v hu
    match u, hu with
    | [a, b], _ =>
      rw [show ([a, b] : List Nat) ++ v = a :: b :: v from rfl]
      rw [swapLoopDown, swapAdj, swapLoopDown]
      rw [show ([a, b] : List Nat) = [a] ++ [b] from rfl, rotr_concat]
      rfl
  | succ m ih =>
    intro u v hu
    obtain ⟨u1, q, rfl⟩ : ∃ u1 q, u = u1 ++ [q] := by
      rcases List.eq_nil_or_concat u with rfl | ⟨u1, q, h⟩
      · simp at hu
      · exact ⟨u1, q, by simpa [List.concat_eq_append] using h⟩
    obtain ⟨w, p, rfl⟩ : ∃ w p, u1 = (w ++ [p] : List Nat) := by
      rcases List.eq_nil_or_concat u1 with rfl | ⟨w, p, h⟩
      · simp at hu
      · exact ⟨w, p, by simpa [List.concat_eq_append] using h⟩
    have hw : w.length = m + 1 := by simp at hu; omega
    have hsw : swapAdj ((w ++ [p] ++ [q]) ++ v) (m + 1) = (w ++ [q] ++ [p]) ++ v := by
      have := swapAdj_at_append w p q v
      rw [hw] at this
      simpa using this
    have step1 : swapLoopDown ((w ++ [p] ++ [q]) ++ v) (m + 1) (m + 2)
        = swapLoopDown ((w ++ [q] ++ [p]) ++ v) m (m + 1) := by
      rw [swapLoopDown, hsw]
      norm_num
    have hlen2 : (w ++ [q] : List Nat).length = m + 2 := by simp; omega
    have step2 : swapLoopDown ((w ++ [q]) ++ (p :: v)) m (m + 1)
        = rotr (w ++ [q]) ++ (p :: v) := ih (w ++ [q]) (p :: v) hlen2
    calc swapLoopDown ((w ++ [p] ++ [q]) ++ v) (m + 1) (m + 2)
        = swapLoopDown ((w ++ [q] ++ [p]) ++ v) m (m + 1) := step1
      _ = swapLoopDown ((w ++ [q]) ++ (p :: v)) m (m + 1) := by simp
      _ = rotr (w ++ [q]) ++ (p :: v) := step2
      _ = rotr (w ++ [p] ++ [q]) ++ v := by
          rw [rotr_concat, show (w ++ [p] ++ [q] : List Nat) = (w ++ [p]) ++ [q] by simp,
            rotr_concat]
          simp

/-! ### Closed forms for one shift step

The string of length len splits into the lower segment P (indices 0..mid,
of size (len+1)/2, midpoint included) and the upper segment X (indices
mid+1..len-1, of size len/2); R is whatever the buffer holds at and after
index len.  One left step rotates each segment left by one position; one
right step (for len at least 2, where the two stray boundary swaps of
shift_right_once cancel) rotates each segment right by one position. -/

lemma shift_left_once_decomp (P X R : List Nat) (len : Nat) (h1 : 1 ≤ len)
    (hP : P.length = (len - 1) / 2 + 1) (hX : X.length = len - ((len - 1) / 2 + 1)) :
    shift_left_once (P ++ X ++ R) len = rotl P ++ rotl X ++ R := by
  have hdle : (len - 1) / 2 ≤ len - 1 := Nat.div_le_self _ _
  have hm1 : (len - 1) / 2 + 1 ≤ len := by omega
  rw [shift_left_once]
  obtain ⟨m, hm⟩ : ∃ m, (len - 1) / 2 = m := ⟨_, rfl⟩
  rw [hm] at hP hX hm1 ⊢
  rw [List.append_assoc, swapLoopUp_full m P (X ++ R) hP]
  rw [show m + 1 = (rotl P).length + 0 by rw [rotl_length]; omega]
  rw [swapLoopUp_append]
  rcases X with _ | ⟨x, X2⟩
  · have hc : len - 1 - ((rotl P).length + 0) = 0 := by
      rw [rotl_length]
      simp at hX
      omega
    rw [hc]
    simp [swapLoopUp, rotl]
  · have hXl : (x :: X2).length = (len - 1 - ((rotl P).length + 0)) + 1 := by
      rw [rotl_length]
      simp at hX ⊢
      omega
    rw [swapLoopUp_full _ (x :: X2) R hXl]
    simp

lemma shift_right_once_decomp (P X R : List Nat) (len : Nat) (h2 : 2 ≤ len)
    (hP : P.length = (len - 1) / 2 + 1) (hX : X.length = len - ((len - 1) / 2 + 1)) :
    shift_right_once (P ++ X ++ R) len = rotr P ++ rotr X ++ R := by
  have hdle : (len - 1) / 2 * 2 ≤ len - 1 := Nat.div_mul_le_self _ _
  have hmle : (len - 1) / 2 ≤ len - 2 := by omega
  obtain ⟨Q, a, rfl⟩ : ∃ Q a, P = Q ++ [a] := by
    rcases List.eq_nil_or_concat P with rfl | ⟨Q, a, h⟩
    · simp at hP
    · exact ⟨Q, a, by simpa [List.concat_eq_append] using h⟩
  obtain ⟨M, z, rfl⟩ : ∃ M z, X = M ++ [z] := by
    rcases List.eq_nil_or_concat X with rfl | ⟨M, z, h⟩
    · exfalso
      simp at hX
      omega
    · exact ⟨M, z, by simpa [List.concat_eq_append] using h⟩
  have hQ : Q.length = (len - 1) / 2 := by simp at hP; omega
  have hM : M.length = len - ((len - 1) / 2 + 1) - 1 := by simp at hX; omega
  rw [shift_right_once]
  have harr : (Q ++ [a]) ++ (M ++ [z]) ++ R = Q ++ ((a :: (M ++ [z])) ++ R) := by simp
  rw [harr]
  rw [show len - 2 = Q.length + (len - 2 - (len - 1) / 2) by omega]
  rw [swapLoopDown_append Q _ _ _ (by omega)]
  have hinner : (a :: (M ++ [z])).length = (len - 2 - (len - 1) / 2) + 2 := by
    simp [hM]; omega
  rw [show len - 1 - (len - 1) / 2 = (len - 2 - (len - 1) / 2) + 1 by omega]
  rw [swapLoopDown_full _ (a :: (M ++ [z])) R hinner]
  rw [show (a :: (M ++ [z])) = (a :: M) ++ [z] by simp]
  rw [rotr_concat]
  have harr2 : Q ++ ((z :: a :: M) ++ R) = ((Q ++ [z] ++ [a]) ++ (M ++ R)) := by simp
  rw [harr2]
  have houter : (Q ++ [z] ++ [a]).length = (len - 1) / 2 + 2 := by simp [hQ]
  rw [swapLoopDown_full _ (Q ++ [z] ++ [a]) (M ++ R) houter]
  rw [rotr_concat]
  rw [show (Q ++ [a] : List Nat) = Q ++ [a] from rfl, rotr_concat]
  rw [rotr_concat]
  simp

/-! ### Inverse and periodicity of the shift stage -/

lemma shift_left_once_zero (l : List Nat) : shift_left_once l 0 = l := rfl

lemma shift_left_once_length (l : List Nat) (len : Nat) :
    (shift_left_once l len).length = l.length := by
  rw [shift_left_once, swapLoopUp_length, swapLoopUp_length]

lemma shift_right_once_length (l : List Nat) (len : Nat) :
    (shift_right_once l len).length = l.length := by
  rw [shift_right_once, swapLoopDown_length, swapLoopDown_length]

/-- Split any buffer of length at least len into the two rotation
segments and the tail of the buffer. -/
lemma segment_split (l : List Nat) (len : Nat) (h1 : 1 ≤ len) (hl : len ≤ l.length) :
    ∃ P X R, l = P ++ X ++ R ∧ P.length = (len - 1) / 2 + 1 ∧
      X.length = len - ((len - 1) / 2 + 1) ∧ l.take len = P ++ X ∧ l.drop len = R := by
  have hdle : (len - 1) / 2 ≤ len - 1 := Nat.div_le_self _ _
  have hm1 : (len - 1) / 2 + 1 ≤ len := by omega
  refine ⟨l.take ((len - 1) / 2 + 1), (l.drop ((len - 1) / 2 + 1)).take (len - ((len - 1) / 2 + 1)),
    l.drop len, ?_, ?_, ?_, ?_, rfl⟩
  · conv_lhs => rw [← List.take_append_drop ((len - 1) / 2 + 1) l]
    rw [List.append_assoc]
    congr 1
    conv_lhs => rw [← List.take_append_drop (len - ((len - 1) / 2 + 1)) (l.drop ((len - 1) / 2 + 1))]
    rw [List.drop_drop]
    congr 2
    omega
  · rw [List.length_take]
    omega
  · rw [List.length_take, List.length_drop]
    omega
  · conv_lhs => rw [← List.take_append_drop ((len - 1) / 2 + 1) l]
    rw [List.take_append_eq_append_take]
    rw [List.take_of_length_le (by rw [List.length_take]; omega)]
    congr 1
    rw [List.length_take]
    congr 1
    omega

lemma shift_right_shift_left (l : List Nat) (len : Nat) (h2 : 2 ≤ len)
    (hl : len ≤ l.length) :
    shift_right_once (shift_left_once l len) len = l := by
  obtain ⟨P, X, R, rfl, hP, hX, -, -⟩ := segment_split l len (by omega) hl
  rw [shift_left_once_decomp P X R len (by omega) hP hX]
  rw [shift_right_once_decomp (rotl P) (rotl X) R len h2 (by rw [rotl_length]; omega)
    (by rw [rotl_length]; omega)]
  rw [rotr_rotl, rotr_rotl]

lemma rotl_eq_rotate (l : List Nat) : rotl l = l.rotate 1 := by
  cases l with
  | nil => rfl
  | cons x xs =>
    rw [rotl, show (1 : Nat) = 0 + 1 from rfl, List.rotate_cons_succ, List.rotate_zero]

lemma rotl_iterate (n : Nat) : ∀ l : List Nat, rotl^[n] l = l.rotate n := by
  induction n with
  | zero => intro l; simp
  | succ n ih =>
    intro l
    rw [Function.iterate_succ_apply, ih, rotl_eq_rotate, List.rotate_rotate]
    congr 1
    omega

lemma rotate_of_dvd (l : List Nat) (n : Nat) (h : l.length ∣ n) : l.rotate n = l := by
  obtain ⟨k, rfl⟩ := h
  induction k with
  | zero => simp
  | succ k ih =>
    rw [show l.length * (k + 1) = l.length * k + l.length by ring]
    rw [← List.rotate_rotate, ih, List.rotate_length]

lemma take_len_append (u v : List Nat) : (u ++ v).take u.length = u := by
  rw [List.take_append_eq_append_take]
  simp

lemma drop_len_append (u v : List Nat) : (u ++ v).drop u.length = v := by
  rw [List.drop_append_eq_append_drop]
  simp

lemma rotl_perm (l : List Nat) : List.Perm (rotl l) l := by
  rw [rotl_eq_rotate]
  exact List.rotate_perm l 1

lemma rotr_perm (l : List Nat) : List.Perm (rotr l) l := by
  conv_rhs => rw [← rotl_rotr l]
  exact (rotl_perm (rotr l)).symm

lemma shift_left_iterate_length (len K : Nat) : ∀ l : List Nat,
    ((fun x => shift_left_once x len)^[K] l).length = l.length := by
  induction K with
  | zero => intro l; rfl
  | succ K ih =>
    intro l
    rw [Function.iterate_succ_apply]
    rw [ih (shift_left_once l len)]
    exact shift_left_once_length l len

lemma shift_right_iterate_length (len K : Nat) : ∀ l : List Nat,
    ((fun x => shift_right_once x len)^[K] l).length = l.length := by
  induction K with
  | zero => intro l; rfl
  | succ K ih =>
    intro l
    rw [Function.iterate_succ_apply]
    rw [ih (shift_right_once l len)]
    exact shift_right_once_length l len

/-- Iterating the left shift rotates each segment that many times. -/
lemma shift_left_iterate_decomp (len : Nat) (h1 : 1 ≤ len) :
    ∀ (n : Nat) (P X R : List Nat), P.length = (len - 1) / 2 + 1 →
      X.length = len - ((len - 1) / 2 + 1) →
      (fun l => shift_left_once l len)^[n] (P ++ X ++ R) = rotl^[n] P ++ rotl^[n] X ++ R := by
  intro n
  induction n with
  | zero => intro P X R _ _; rfl
  | succ n ih =>
    intro P X R hP hX
    rw [Function.iterate_succ_apply]
    rw [shift_left_once_decomp P X R len h1 hP hX]
    rw [ih (rotl P) (rotl X) R (by rw [rotl_length]; exact hP) (by rw [rotl_length]; exact hX)]
    rw [← Function.iterate_succ_apply rotl n P, ← Function.iterate_succ_apply rotl n X]

/-- The left shift is periodic with period lcm of the two segment sizes. -/
lemma shift_left_iterate_period (l : List Nat) (len : Nat) (hl : len ≤ l.length) :
    (fun x => shift_left_once x len)^[Nat.lcm ((len + 1) / 2) (len / 2)] l = l := by
  rcases Nat.eq_zero_or_pos len with rfl | hpos
  · exact Function.iterate_fixed (shift_left_once_zero l) _
  · obtain ⟨P, X, R, rfl, hP, hX, -, -⟩ := segment_split l len hpos hl
    rw [shift_left_iterate_decomp len hpos _ P X R hP hX]
    have hdle : (len - 1) / 2 ≤ len - 1 := Nat.div_le_self _ _
    have hPl : P.length = (len + 1) / 2 := by omega
    have hXl : X.length = len / 2 := by omega
    rw [rotl_iterate, rotl_iterate]
    rw [rotate_of_dvd P _ (by rw [hPl]; exact Nat.dvd_lcm_left _ _)]
    rw [rotate_of_dvd X _ (by rw [hXl]; exact Nat.dvd_lcm_right _ _)]

/-- K right steps undo K left steps (for strings of length at least 2). -/
lemma shift_iterate_right_left (len : Nat) (h2 : 2 ≤ len) :
    ∀ (K : Nat) (l : List Nat), len ≤ l.length →
      (fun x => shift_right_once x len)^[K] ((fun x => shift_left_once x len)^[K] l) = l := by
  intro K
  induction K with
  | zero => intro l _; rfl
  | succ K ih =>
    intro l hl
    rw [Function.iterate_succ_apply' (fun x => shift_left_once x len) K l]
    rw [Function.iterate_succ_apply (fun x => shift_right_once x len) K]
    rw [shift_right_shift_left _ len h2 (by rw [shift_left_iterate_length]; exact hl)]
    exact ih l hl

/-- One left step permutes the first len bytes among themselves and leaves
the rest of the buffer alone. -/
lemma shift_left_once_take_perm (l : List Nat) (len : Nat) (h1 : 1 ≤ len)
    (hl : len ≤ l.length) :
    List.Perm ((shift_left_once l len).take len) (l.take len) ∧
      (shift_left_once l len).drop len = l.drop len := by
  obtain ⟨P, X, R, rfl, hP, hX, htake, hdrop⟩ := segment_split (l := l) len h1 hl
  rw [shift_left_once_decomp P X R len h1 hP hX]
  have hlen2 : len = (rotl P ++ rotl X).length := by
    simp [rotl_length]
    omega
  have htake2 : List.take (rotl P ++ rotl X).length (P ++ X ++ R) = P ++ X := by
    rw [← hlen2]; exact htake
  have hdrop2 : List.drop (rotl P ++ rotl X).length (P ++ X ++ R) = R := by
    rw [← hlen2]; exact hdrop
  constructor
  · rw [hlen2, show rotl P ++ rotl X ++ R = (rotl P ++ rotl X) ++ R from rfl,
      take_len_append, htake2]
    exact List.Perm.append (rotl_perm P) (rotl_perm X)
  · rw [hlen2, show rotl P ++ rotl X ++ R = (rotl P ++ rotl X) ++ R from rfl,
      drop_len_append, hdrop2]

lemma shift_right_once_take_perm (l : List Nat) (len : Nat) (h2 : 2 ≤ len)
    (hl : len ≤ l.length) :
    List.Perm ((shift_right_once l len).take len) (l.take len) ∧
      (shift_right_once l len).drop len = l.drop len := by
  obtain ⟨P, X, R, rfl, hP, hX, htake, hdrop⟩ := segment_split (l := l) len (by omega) hl
  rw [shift_right_once_decomp P X R len h2 hP hX]
  have hlen2 : len = (rotr P ++ rotr X).length := by
    simp [rotr_length]
    omega
  have htake2 : List.take (rotr P ++ rotr X).length (P ++ X ++ R) = P ++ X := by
    rw [← hlen2]; exact htake
  have hdrop2 : List.drop (rotr P ++ rotr X).length (P ++ X ++ R) = R := by
    rw [← hlen2]; exact hdrop
  constructor
  · rw [hlen2, show rotr P ++ rotr X ++ R = (rotr P ++ rotr X) ++ R from rfl,
      take_len_append, htake2]
    exact List.Perm.append (rotr_perm P) (rotr_perm X)
  · rw [hlen2, show rotr P ++ rotr X ++ R = (rotr P ++ rotr X) ++ R from rfl,
      drop_len_append, hdrop2]

lemma shift_left_iterate_take_perm (len : Nat) (h1 : 1 ≤ len) :
    ∀ (K : Nat) (l : List Nat), len ≤ l.length →
      List.Perm (((fun x => shift_left_once x len)^[K] l).take len) (l.take len) := by
  intro K
  induction K with
  | zero => intro l _; exact List.Perm.refl _
  | succ K ih =>
    intro l hl
    rw [Function.iterate_succ_apply]
    exact List.Perm.trans
      (ih (shift_left_once l len) (by rw [shift_left_once_length]; exact hl))
      (shift_left_once_take_perm l len h1 hl).1

lemma shift_right_iterate_take_perm (len : Nat) (h2 : 2 ≤ len) :
    ∀ (K : Nat) (l : List Nat), len ≤ l.length →
      List.Perm (((fun x => shift_right_once x len)^[K] l).take len) (l.take len) := by
  intro K
  induction K with
  | zero => intro l _; exact List.Perm.refl _
  | succ K ih =>
    intro l hl
    rw [Function.iterate_succ_apply]
    exact List.Perm.trans
      (ih (shift_right_once l len) (by rw [shift_right_once_length]; exact hl))
      (shift_right_once_take_perm l len h2 hl).1

/-! ### The substitution table and the two scans -/

lemma map_fst_table : SUBSTITUTION_TABLE.map Prod.fst = tableSyms := by decide

lemma map_snd_mem_table : ∀ p ∈ SUBSTITUTION_TABLE, p.2 ∈ tableSyms := by decide

lemma map_fst_mem_table : ∀ p ∈ SUBSTITUTION_TABLE, p.1 ∈ tableSyms := by decide

lemma substChar_fwd_not_mem (c : Nat) (hc : c ∉ tableSyms) : substChar_fwd c = c := by
  have hnone : SUBSTITUTION_TABLE.find? (fun p => p.1 == c) = none := by
    rw [List.find?_eq_none]
    intro p hp
    simp only [beq_iff_eq]
    intro hpc
    exact hc (hpc ▸ map_fst_mem_table p hp)
  simp [substChar_fwd, hnone]

lemma substChar_rev_not_mem (c : Nat) (hc : c ∉ tableSyms) : substChar_rev c = c := by
  have hnone : SUBSTITUTION_TABLE.find? (fun p => p.2 == c) = none := by
    rw [List.find?_eq_none]
    intro p hp
    simp only [beq_iff_eq]
    intro hpc
    exact hc (hpc ▸ map_snd_mem_table p hp)
  simp [substChar_rev, hnone]

lemma substChar_rev_fwd (c : Nat) : substChar_rev (substChar_fwd c) = c := by
  by_cases hc : c ∈ tableSyms
  · simp only [tableSyms] at hc
    fin_cases hc <;> decide
  · rw [substChar_fwd_not_mem c hc, substChar_rev_not_mem c hc]

lemma substChar_fwd_rev (c : Nat) : substChar_fwd (substChar_rev c) = c := by
  by_cases hc : c ∈ tableSyms
  · simp only [tableSyms] at hc
    fin_cases hc <;> decide
  · rw [substChar_rev_not_mem c hc, substChar_fwd_not_mem c hc]

lemma substChar_fwd_ne_zero (c : Nat) (h : c ≠ 0) : substChar_fwd c ≠ 0 := by
  by_cases hc : c ∈ tableSyms
  · simp only [tableSyms] at hc
    fin_cases hc <;> decide
  · rw [substChar_fwd_not_mem c hc]
    exact h

lemma substChar_rev_ne_zero (c : Nat) (h : c ≠ 0) : substChar_rev c ≠ 0 := by
  by_cases hc : c ∈ tableSyms
  · simp only [tableSyms] at hc
    fin_cases hc <;> decide
  · rw [substChar_rev_not_mem c hc]
    exact h

lemma substChar_fwd_no_fixed (c : Nat) (hc : c ∈ tableSyms) : substChar_fwd c ≠ c := by
  simp only [tableSyms] at hc
  fin_cases hc <;> decide

/-! ### strlen facts -/

lemma strlen_cons (c : Nat) (t : List Nat) :
    strlen (c :: t) = if c = 0 then 0 else strlen t + 1 := by
  by_cases h : c = 0 <;> simp [strlen, List.takeWhile_cons, h]

lemma take_strlen (s : List Nat) : s.take (strlen s) = s.takeWhile (fun c => c ≠ 0) := by
  induction s with
  | nil => rfl
  | cons c t ih =>
    by_cases h : c = 0
    · simp [strlen, List.takeWhile_cons, h]
    · have hs : strlen (c :: t) = strlen t + 1 := by rw [strlen_cons, if_neg h]
      rw [hs, List.take_succ_cons, List.takeWhile_cons]
      simp [h, ih]

lemma mem_take_strlen_ne_zero (s : List Nat) (c : Nat) (h : c ∈ s.take (strlen s)) :
    c ≠ 0 := by
  rw [take_strlen] at h
  simpa using List.mem_takeWhile_imp h

lemma strlen_le_length (s : List Nat) : strlen s ≤ s.length := by
  induction s with
  | nil => simp [strlen]
  | cons c t ih =>
    rw [strlen_cons]
    by_cases h : c = 0
    · simp [h]
    · simp [h]
      omega

lemma strlen_replicate (n c : Nat) (hc : c ≠ 0) : strlen (List.replicate n c) = n := by
  induction n with
  | zero => rfl
  | succ n ih => rw [List.replicate_succ, strlen_cons, if_neg hc, ih]

/-! ### Structure of the substitution scans -/

lemma substitute_forward_eq_map (l : List Nat) : ∀ (len : Nat),
    (∀ c ∈ l.take len, c ≠ 0) →
    substitute_forward l len = (l.take len).map substChar_fwd ++ l.drop len := by
  induction l with
  | nil => intro len _; cases len <;> rfl
  | cons c t ih =>
    intro len h
    cases len with
    | zero => rfl
    | succ n =>
      have hc : c ≠ 0 := h c (by simp)
      rw [show substitute_forward (c :: t) (n + 1)
            = substChar_fwd c :: substitute_forward t n by simp [substitute_forward, hc]]
      rw [List.take_succ_cons, List.map_cons, List.drop_succ_cons, List.cons_append]
      rw [ih n (fun d hd => h d (by simp [hd]))]

lemma substitute_reverse_eq_map (l : List Nat) : ∀ (len : Nat),
    (∀ c ∈ l.take len, c ≠ 0) →
    substitute_reverse l len = (l.take len).map substChar_rev ++ l.drop len := by
  induction l with
  | nil => intro len _; cases len <;> rfl
  | cons c t ih =>
    intro len h
    cases len with
    | zero => rfl
    | succ n =>
      have hc : c ≠ 0 := h c (by simp)
      rw [show substitute_reverse (c :: t) (n + 1)
            = substChar_rev c :: substitute_reverse t n by simp [substitute_reverse, hc]]
      rw [List.take_succ_cons, List.map_cons, List.drop_succ_cons, List.cons_append]
      rw [ih n (fun d hd => h d (by simp [hd]))]

lemma substitute_rev_fwd (s : List Nat) : ∀ len : Nat,
    substitute_reverse (substitute_forward s len) len = s := by
  induction s with
  | nil => intro len; cases len <;> rfl
  | cons c t ih =>
    intro len
    cases len with
    | zero => rfl
    | succ n =>
      by_cases hc : c = 0
      · subst hc
        simp [substitute_forward, substitute_reverse]
      · have hfc : substChar_fwd c ≠ 0 := substChar_fwd_ne_zero c hc
        simp [substitute_forward, substitute_reverse, hc, hfc, substChar_rev_fwd, ih n]

lemma substitute_fwd_rev (s : List Nat) : ∀ len : Nat,
    substitute_forward (substitute_reverse s len) len = s := by
  induction s with
  | nil => intro len; cases len <;> rfl
  | cons c t ih =>
    intro len
    cases len with
    | zero => rfl
    | succ n =>
      by_cases hc : c = 0
      · subst hc
        simp [substitute_forward, substitute_reverse]
      · have hfc : substChar_rev c ≠ 0 := substChar_rev_ne_zero c hc
        simp [substitute_forward, substitute_reverse, hc, hfc, substChar_fwd_rev, ih n]

/-- Forward substitution moves the buffer whenever a table-mapped byte
occurs among the first len bytes and no terminator interrupts the scan. -/
lemma substitute_forward_changes (l : List Nat) : ∀ (len : Nat),
    (∀ c ∈ l.take len, c ≠ 0) → (∃ c ∈ l.take len, c ∈ tableSyms) →
    substitute_forward l len ≠ l := by
  induction l with
  | nil =>
    intro len _ hex
    rcases hex with ⟨c, hc, -⟩
    simp at hc
  | cons c t ih =>
    intro len h0 hex
    cases len with
    | zero =>
      rcases hex with ⟨d, hd, -⟩
      simp at hd
    | succ n =>
      have hc : c ≠ 0 := h0 c (by simp)
      rw [show substitute_forward (c :: t) (n + 1)
            = substChar_fwd c :: substitute_forward t n by simp [substitute_forward, hc]]
      intro heq
      injection heq with h1 h2
      rcases hex with ⟨d, hd, hdm⟩
      rw [List.take_succ_cons] at hd
      rcases List.mem_cons.mp hd with rfl | hd2
      · exact substChar_fwd_no_fixed d hdm h1
      · exact ih n (fun e he => h0 e (by simp [he])) ⟨d, hd2, hdm⟩ h2

/-! ### Substitution commutes with the shift permutation -/

lemma map_rotl (f : Nat → Nat) (l : List Nat) : (rotl l).map f = rotl (l.map f) := by
  cases l <;> simp [rotl]

lemma map_rotr (f : Nat → Nat) (l : List Nat) : (rotr l).map f = rotr (l.map f) := by
  rw [rotr, List.map_reverse, map_rotl, List.map_reverse, rotr]

lemma substitute_reverse_shift_right_comm (l : List Nat) (len : Nat) (h2 : 2 ≤ len)
    (hl : len ≤ l.length) (h0 : ∀ c ∈ l.take len, c ≠ 0) :
    substitute_reverse (shift_right_once l len) len
      = shift_right_once (substitute_reverse l len) len := by
  obtain ⟨P, X, R, rfl, hP, hX, htake, hdrop⟩ := segment_split (l := l) len (by omega) hl
  rw [shift_right_once_decomp P X R len h2 hP hX]
  have hT : (rotr P ++ rotr X ++ R).take len = rotr P ++ rotr X := by
    rw [show rotr P ++ rotr X ++ R = (rotr P ++ rotr X) ++ R from rfl]
    rw [show len = (rotr P ++ rotr X).length by simp [rotr_length]; omega]
    exact take_len_append _ _
  have hD : (rotr P ++ rotr X ++ R).drop len = R := by
    rw [show rotr P ++ rotr X ++ R = (rotr P ++ rotr X) ++ R from rfl]
    rw [show len = (rotr P ++ rotr X).length by simp [rotr_length]; omega]
    exact drop_len_append _ _
  have h0A : ∀ c ∈ (rotr P ++ rotr X ++ R).take len, c ≠ 0 := by
    intro c hc
    rw [hT] at hc
    apply h0
    rw [htake]
    rcases List.mem_append.mp hc with h | h
    · exact List.mem_append.mpr (Or.inl ((rotr_perm P).mem_iff.mp h))
    · exact List.mem_append.mpr (Or.inr ((rotr_perm X).mem_iff.mp h))
  rw [substitute_reverse_eq_map _ len h0A, hT, hD]
  rw [List.map_append, map_rotr, map_rotr]
  rw [substitute_reverse_eq_map _ len h0, htake, hdrop, List.map_append]
  rw [shift_right_once_decomp (P.map substChar_rev) (X.map substChar_rev) R len h2
    (by simp [hP]) (by simp [hX])]

lemma substitute_reverse_iterate_comm (len : Nat) (h2 : 2 ≤ len) :
    ∀ (K : Nat) (l : List Nat), len ≤ l.length → (∀ c ∈ l.take len, c ≠ 0) →
      substitute_reverse ((fun x => shift_right_once x len)^[K] l) len
        = (fun x => shift_right_once x len)^[K] (substitute_reverse l len) := by
  intro K
  induction K with
  | zero => intro l _ _; rfl
  | succ K ih =>
    intro l hl h0
    rw [Function.iterate_succ_apply, Function.iterate_succ_apply]
    have h0A : ∀ c ∈ (shift_right_once l len).take len, c ≠ 0 := by
      intro c hc
      exact h0 c ((shift_right_once_take_perm l len h2 hl).1.mem_iff.mp hc)
    rw [ih (shift_right_once l len) (by rw [shift_right_once_length]; exact hl) h0A]
    rw [substitute_reverse_shift_right_comm l len h2 hl h0]

/-! ### Reduction of the public entry points -/

lemma validate_arg_success (s : List Nat) (key : Int) (h1 : 1 ≤ key)
    (h2 : strlen s ≤ CIPHER_MAX_INPUT_LEN) : validate_arg (some s) key = .success := by
  rw [show validate_arg (some s) key
        = if key ≤ 0 then cipher_status_t.error_invalid_key
          else if strlen s > CIPHER_MAX_INPUT_LEN then cipher_status_t.error_invalid_length
          else cipher_status_t.success from rfl]
  rw [if_neg (by omega), if_neg (by omega)]

lemma cipher_encrypt_success (s : List Nat) (key : Int) (h1 : 1 ≤ key)
    (h2 : strlen s ≤ CIPHER_MAX_INPUT_LEN) :
    cipher_encrypt (some s) key = (.success,
      some (substitute_forward ((fun l => shift_left_once l (strlen s))^[key.toNat] s)
        (strlen s))) := by
  have hv := validate_arg_success s key h1 h2
  simp [cipher_encrypt, hv]

lemma cipher_decrypt_success (s : List Nat) (key : Int) (h1 : 1 ≤ key)
    (h2 : strlen s ≤ CIPHER_MAX_INPUT_LEN) :
    cipher_decrypt (some s) key = (.success,
      some (substitute_reverse ((fun l => shift_right_once l (strlen s))^[key.toNat] s)
        (strlen s))) := by
  have hv := validate_arg_success s key h1 h2
  simp [cipher_decrypt, hv]

/-! ### Helper facts about the case normalizer -/

lemma toupper_ne_zero (c : Nat) (h : c ≠ 0) : toupper c ≠ 0 := by
  unfold toupper
  split <;> omega

lemma uppercase_str_struct (s : List Nat) : uppercase_str s
    = (s.takeWhile (fun c => c ≠ 0)).map toupper ++ s.dropWhile (fun c => c ≠ 0) := by
  induction s with
  | nil => rfl
  | cons c t ih =>
    by_cases h : c = 0
    · simp [uppercase_str, h, List.takeWhile_cons, List.dropWhile_cons]
    · simp [uppercase_str, h, List.takeWhile_cons, List.dropWhile_cons, ih]

lemma uppercase_str_length (s : List Nat) : (uppercase_str s).length = s.length := by
  induction s with
  | nil => rfl
  | cons c t ih =>
    by_cases h : c = 0 <;> simp [uppercase_str, h, ih]

lemma uppercase_str_strlen (s : List Nat) : strlen (uppercase_str s) = strlen s := by
  induction s with
  | nil => rfl
  | cons c t ih =>
    by_cases h : c = 0
    · simp [uppercase_str, h]
    · have h2 : toupper c ≠ 0 := toupper_ne_zero c h
      simp [uppercase_str, h, strlen_cons, h2, ih]

/-! ## The claims -/

/-- Claim C1.  The round-trip property fails on the code: for the valid
one-character buffer "5" (bytes [53, 0]) and key 1, cipher_encrypt
succeeds and yields "F", but cipher_decrypt on that result with the same
key swaps the null terminator to the front of the buffer (the stray
boundary swap of shift_right_once at length 1), leaving the empty string
[0, 70] instead of restoring [53, 0]. -/
theorem roundtrip_fails_on_single_char :
    cipher_encrypt (some [53, 0]) 1 = (.success, some [70, 0]) ∧
    cipher_decrypt (some [70, 0]) 1 = (.success, some [0, 70]) ∧
    some ([0, 70] : List Nat) ≠ some [53, 0] := by
  refine ⟨by decide, by decide, by decide⟩

/-- Claim C2.  The midpoint is not left in place by a rotation step: for
the length-5 sequence "ABCDE", mid = (5-1)/2 = 2, yet one left step
produces "BCAED", moving the byte at index 2 (the lower loop of
shift_left_once rotates indices 0..mid, midpoint included, not 0..mid-1). -/
theorem midpoint_moves_on_shift :
    (5 - 1) / 2 = 2 ∧
    shift_left_once [65, 66, 67, 68, 69, 0] 5 = [66, 67, 65, 69, 68, 0] ∧
    ([66, 67, 65, 69, 68, 0] : List Nat).getD 2 0
      ≠ ([65, 66, 67, 68, 69, 0] : List Nat).getD 2 0 := by
  refine ⟨rfl, by decide, by decide⟩

/-- Claim C3.  A single right-rotation step is not a no-op on a length-1
buffer: shift_right_once on "A" (bytes [65, 0]) with len 1 swaps the
character with the null terminator, giving [0, 65], although the left
step is a no-op there and the spec calls both a no-op. -/
theorem shift_right_not_noop_short :
    shift_left_once [65, 0] 1 = [65, 0] ∧
    shift_right_once [65, 0] 1 = [0, 65] ∧
    ([0, 65] : List Nat) ≠ [65, 0] := by
  refine ⟨by decide, by decide, by decide⟩

/-- Claim C4.  Validation precedence: a null buffer yields NullPointer for
every key; a non-null buffer with key at most 0 yields InvalidKey, with no
condition on the length; a non-null buffer with key at least 1 and more
than 10000 characters yields InvalidLength; otherwise (length at most
10000 included) the call succeeds.  The four enumerators carry the codes
0, -1, -2, -3. -/
theorem validation_precedence :
    (∀ key : Int,
        cipher_encrypt none key = (.error_null_pointer, none) ∧
        cipher_decrypt none key = (.error_null_pointer, none)) ∧
    (∀ (s : List Nat) (key : Int), key ≤ 0 →
        (cipher_encrypt (some s) key).1 = .error_invalid_key ∧
        (cipher_decrypt (some s) key).1 = .error_invalid_key) ∧
    (∀ (s : List Nat) (key : Int), 1 ≤ key → CIPHER_MAX_INPUT_LEN < strlen s →
        (cipher_encrypt (some s) key).1 = .error_invalid_length ∧
        (cipher_decrypt (some s) key).1 = .error_invalid_length) ∧
    (∀ (s : List Nat) (key : Int), 1 ≤ key → strlen s ≤ CIPHER_MAX_INPUT_LEN →
        (cipher_encrypt (some s) key).1 = .success ∧
        (cipher_decrypt (some s) key).1 = .success) ∧
    cipher_status_t.code .success = 0 ∧
    cipher_status_t.code .error_null_pointer = -1 ∧
    cipher_status_t.code .error_invalid_key = -2 ∧
    cipher_status_t.code .error_invalid_length = -3 := by
  refine ⟨fun key => ⟨rfl, rfl⟩, ?_, ?_, ?_, rfl, rfl, rfl, rfl⟩
  · intro s key h
    have hv : validate_arg (some s) key = .error_invalid_key := by
      rw [show validate_arg (some s) key
            = if key ≤ 0 then cipher_status_t.error_invalid_key
              else if strlen s > CIPHER_MAX_INPUT_LEN then cipher_status_t.error_invalid_length
              else cipher_status_t.success from rfl]
      rw [if_pos h]
    exact ⟨by simp [cipher_encrypt, hv], by simp [cipher_decrypt, hv]⟩
  · intro s key h1 hlen
    have hv : validate_arg (some s) key = .error_invalid_length := by
      rw [show validate_arg (some s) key
            = if key ≤ 0 then cipher_status_t.error_invalid_key
              else if strlen s > CIPHER_MAX_INPUT_LEN then cipher_status_t.error_invalid_length
              else cipher_status_t.success from rfl]
      rw [if_neg (by omega), if_pos (by omega)]
    exact ⟨by simp [cipher_encrypt, hv], by simp [cipher_decrypt, hv]⟩
  · intro s key h1 h2
    have hv := validate_arg_success s key h1 h2
    exact ⟨by simp [cipher_encrypt, hv], by simp [cipher_decrypt, hv]⟩

/-- Witness for claim C4, at concrete inputs: an over-length buffer with
key 0 is reported as InvalidKey (precedence), the same buffer with key 1
as InvalidLength, a buffer of exactly 10000 characters succeeds, and a
null buffer is reported as NullPointer. -/
theorem validation_precedence_witness :
    ((0 : Int) ≤ 0 ∧
      (cipher_encrypt (some (List.replicate 10001 49)) 0).1 = .error_invalid_key) ∧
    (1 ≤ (1 : Int) ∧ CIPHER_MAX_INPUT_LEN < strlen (List.replicate 10001 49) ∧
      (cipher_encrypt (some (List.replicate 10001 49)) 1).1 = .error_invalid_length) ∧
    (strlen (List.replicate 10000 49) ≤ CIPHER_MAX_INPUT_LEN ∧
      (cipher_encrypt (some (List.replicate 10000 49)) 1).1 = .success) ∧
    cipher_encrypt none 5 = (.error_null_pointer, none) := by
  have hlen1 : CIPHER_MAX_INPUT_LEN < strlen (List.replicate 10001 49) := by
    rw [strlen_replicate 10001 49 (by decide)]
    decide
  have hlen2 : strlen (List.replicate 10000 49) ≤ CIPHER_MAX_INPUT_LEN := by
    rw [strlen_replicate 10000 49 (by decide)]
    decide
  exact ⟨⟨le_refl 0, (validation_precedence.2.1 (List.replicate 10001 49) 0 (le_refl 0)).1⟩,
    ⟨le_refl 1, hlen1, (validation_precedence.2.2.1 (List.replicate 10001 49) 1 (le_refl 1) hlen1).1⟩,
    ⟨hlen2, (validation_precedence.2.2.2.1 (List.replicate 10000 49) 1 (le_refl 1) hlen2).1⟩,
    (validation_precedence.1 5).1⟩

/-- Claim C5.  Whenever cipher_encrypt or cipher_decrypt returns a
non-success status, the buffer argument comes back byte for byte as it
was passed in: validation completes before any mutation. -/
theorem failed_call_leaves_buffer (str : Option (List Nat)) (key : Int) :
    ((cipher_encrypt str key).1 ≠ .success → (cipher_encrypt str key).2 = str) ∧
    ((cipher_decrypt str key).1 ≠ .success → (cipher_decrypt str key).2 = str) := by
  rcases str with _ | s
  · exact ⟨fun _ => rfl, fun _ => rfl⟩
  · by_cases hv : validate_arg (some s) key = .success
    · constructor
      · intro h
        exact absurd (by simp [cipher_encrypt, hv]) h
      · intro h
        exact absurd (by simp [cipher_decrypt, hv]) h
    · constructor
      · intro _
        simp [cipher_encrypt, hv]
      · intro _
        simp [cipher_decrypt, hv]

/-- Witness for claim C5: a failing call (key 0) leaves the concrete
buffer [65, 0] unchanged. -/
theorem failed_call_leaves_buffer_witness :
    (cipher_encrypt (some [65, 0]) 0).1 ≠ .success ∧
    (cipher_encrypt (some [65, 0]) 0).2 = some [65, 0] :=
  ⟨by decide, (failed_call_leaves_buffer (some [65, 0]) 0).1 (by decide)⟩

/-- Counterexample to claim C6 as stated: the valid 26-character buffer
"0D3897,C2A:4B0D3897,C2A:4B" consists entirely of table-mapped characters,
yet cipher_encrypt with key 1 returns it unchanged — the left rotation of
the two 13-character halves exactly pre-compensates the substitution, so
ciphertext can equal plaintext. -/
theorem encrypt_can_fix_plaintext :
    cipher_encrypt (some [48, 68, 51, 56, 57, 55, 44, 67, 50, 65, 58, 52, 66,
        48, 68, 51, 56, 57, 55, 44, 67, 50, 65, 58, 52, 66, 0]) 1
      = (.success, some [48, 68, 51, 56, 57, 55, 44, 67, 50, 65, 58, 52, 66,
        48, 68, 51, 56, 57, 55, 44, 67, 50, 65, 58, 52, 66, 0]) ∧
    48 ∈ ([48, 68, 51, 56, 57, 55, 44, 67, 50, 65, 58, 52, 66,
        48, 68, 51, 56, 57, 55, 44, 67, 50, 65, 58, 52, 66, 0] : List Nat).take
      (strlen [48, 68, 51, 56, 57, 55, 44, 67, 50, 65, 58, 52, 66,
        48, 68, 51, 56, 57, 55, 44, 67, 50, 65, 58, 52, 66, 0]) ∧
    48 ∈ SUBSTITUTION_TABLE.map Prod.fst ∧
    1 ≤ (1 : Int) ∧
    strlen ([48, 68, 51, 56, 57, 55, 44, 67, 50, 65, 58, 52, 66,
        48, 68, 51, 56, 57, 55, 44, 67, 50, 65, 58, 52, 66, 0] : List Nat)
      ≤ CIPHER_MAX_INPUT_LEN := by
  refine ⟨by decide, by decide, by decide, by decide, by decide⟩

/-- Claim C6 (amended).  The substitution table maps no character to
itself, and for every valid buffer containing a table-mapped character the
substitution stage always changes the shifted buffer, so the ciphertext
differs from the buffer as it stood after the shift stage; the ciphertext
can, however, coincide with the original plaintext when the shift
realigns the characters (see the counterexample). -/
theorem substitution_stage_changes (s : List Nat) (K : Int) (h1 : 1 ≤ K)
    (h2 : strlen s ≤ CIPHER_MAX_INPUT_LEN)
    (hmap : ∃ c ∈ s.take (strlen s), c ∈ SUBSTITUTION_TABLE.map Prod.fst) :
    (∀ p ∈ SUBSTITUTION_TABLE, p.1 ≠ p.2) ∧
    (cipher_encrypt (some s) K).2
      ≠ some ((fun l => shift_left_once l (strlen s))^[K.toNat] s) := by
  refine ⟨by decide, ?_⟩
  rw [cipher_encrypt_success s K h1 h2]
  simp only [ne_eq, Option.some.injEq]
  intro heq
  rcases hmap with ⟨c, hc, hcm⟩
  rw [map_fst_table] at hcm
  have hlen1 : 1 ≤ strlen s := by
    rcases Nat.eq_zero_or_pos (strlen s) with h0 | h
    · rw [h0] at hc
      simp at hc
    · exact h
  have hll : strlen s ≤ s.length := strlen_le_length s
  have hperm := shift_left_iterate_take_perm (strlen s) hlen1 K.toNat s hll
  have hz : ∀ d ∈ (((fun l => shift_left_once l (strlen s))^[K.toNat] s)).take (strlen s),
      d ≠ 0 := fun d hd => mem_take_strlen_ne_zero s d (hperm.mem_iff.mp hd)
  have hex : ∃ d ∈ (((fun l => shift_left_once l (strlen s))^[K.toNat] s)).take (strlen s),
      d ∈ tableSyms := ⟨c, hperm.mem_iff.mpr hc, hcm⟩
  exact substitute_forward_changes _ (strlen s) hz hex heq

/-- Witness for claim C6 (amended), at the concrete buffer "A" and key 1:
the encrypted buffer differs from the merely-shifted buffer. -/
theorem substitution_stage_changes_witness :
    (48, 66).1 ≠ (48, 66).2 ∧
    (cipher_encrypt (some [65, 0]) 1).2
      ≠ some ((fun l => shift_left_once l (strlen [65, 0]))^[(1 : Int).toNat] [65, 0]) :=
  ⟨(substitution_stage_changes [65, 0] 1 (by decide) (by decide)
      ⟨65, by decide, by decide⟩).1 (48, 66) (by decide),
    (substitution_stage_changes [65, 0] 1 (by decide) (by decide)
      ⟨65, by decide, by decide⟩).2⟩

/-- Claim C7.  The plaintext column and the ciphertext column of the
substitution table each contain 20 pairwise distinct symbols, and the two
scans are mutually inverse on every buffer and every length argument. -/
theorem substitution_table_inverse :
    (SUBSTITUTION_TABLE.map Prod.fst).Nodup ∧
    (SUBSTITUTION_TABLE.map Prod.snd).Nodup ∧
    (∀ (s : List Nat) (len : Nat), substitute_reverse (substitute_forward s len) len = s) ∧
    (∀ (s : List Nat) (len : Nat), substitute_forward (substitute_reverse s len) len = s) :=
  ⟨by decide, by decide, fun s len => substitute_rev_fwd s len,
    fun s len => substitute_fwd_rev s len⟩

/-- Counterexample to claim C8 as stated: on the length-1 buffer "A" with
key 1, cipher_decrypt (which shifts first, then reverse-substitutes)
yields [0, 65], while the stage order written in the spec
(reverse-substitute, then shift) yields [0, 58]; the two orders are not
equivalent because the stray boundary swap at length 1 moves the
terminator into the scanned range. -/
theorem decrypt_stage_order_counterexample :
    cipher_decrypt (some [65, 0]) 1 = (.success, some [0, 65]) ∧
    decrypt_spec_order [65, 0] 1 = [0, 58] ∧
    (cipher_decrypt (some [65, 0]) 1).2 ≠ some (decrypt_spec_order [65, 0] (1 : Int).toNat) := by
  refine ⟨by decide, by decide, by decide⟩

/-- Claim C8 (amended).  For every valid buffer holding a string of at
least two characters and every key at least 1, cipher_decrypt produces
exactly the buffer obtained by first reverse-substituting the whole
string and then applying the right-rotation steps: the two stage orders
commute whenever the rotation acts within the string. -/
theorem decrypt_stage_order_equiv (s : List Nat) (K : Int) (h1 : 1 ≤ K)
    (hmax : strlen s ≤ CIPHER_MAX_INPUT_LEN) (h2 : 2 ≤ strlen s) :
    cipher_decrypt (some s) K = (.success, some (decrypt_spec_order s K.toNat)) := by
  rw [cipher_decrypt_success s K h1 hmax]
  simp only [decrypt_spec_order]
  rw [substitute_reverse_iterate_comm (strlen s) h2 K.toNat s (strlen_le_length s)
    (fun d hd => mem_take_strlen_ne_zero s d hd)]

/-- Witness for claim C8 (amended), at the concrete buffer "BC", key 1. -/
theorem decrypt_stage_order_equiv_witness :
    cipher_decrypt (some [66, 67, 0]) 1
      = (.success, some (decrypt_spec_order [66, 67, 0] (1 : Int).toNat)) :=
  decrypt_stage_order_equiv [66, 67, 0] 1 (by decide) (by decide) (by decide)

/-- Counterexample to claim C9 as stated: for the length-3 buffer "012",
floor(L/2) = 1 left step does not return the buffer to its original
state, and encrypting with key 1 + floor(L/2) = 2 differs from encrypting
with key 1 — the true period is the lcm of the two segment sizes, which
for odd lengths exceeds floor(L/2). -/
theorem half_length_period_counterexample :
    strlen [48, 49, 50, 0] = 3 ∧
    (3 : Nat) / 2 = 1 ∧
    shift_left_once [48, 49, 50, 0] 3 ≠ [48, 49, 50, 0] ∧
    cipher_encrypt (some [48, 49, 50, 0]) (1 + 1)
      ≠ cipher_encrypt (some [48, 49, 50, 0]) 1 := by
  refine ⟨by decide, rfl, by decide, by decide⟩

/-- Claim C9 (amended).  The left rotation is periodic with period equal
to the least common multiple of the two segment sizes ceil(L/2) and
floor(L/2) (which equals the half-length exactly when L is even), and
adding that period to any valid key leaves the ciphertext unchanged. -/
theorem shift_period_lcm (s : List Nat) (K : Int) (h1 : 1 ≤ K)
    (hmax : strlen s ≤ CIPHER_MAX_INPUT_LEN) :
    (∀ (l : List Nat) (len : Nat), len ≤ l.length →
        (fun x => shift_left_once x len)^[Nat.lcm ((len + 1) / 2) (len / 2)] l = l) ∧
    cipher_encrypt (some s)
        (K + (Nat.lcm ((strlen s + 1) / 2) (strlen s / 2) : Int))
      = cipher_encrypt (some s) K := by
  constructor
  · exact fun l len h => shift_left_iterate_period l len h
  · have h1b : 1 ≤ K + (Nat.lcm ((strlen s + 1) / 2) (strlen s / 2) : Int) := by omega
    rw [cipher_encrypt_success s _ h1b hmax, cipher_encrypt_success s K h1 hmax]
    have htoNat : (K + (Nat.lcm ((strlen s + 1) / 2) (strlen s / 2) : Int)).toNat
        = K.toNat + Nat.lcm ((strlen s + 1) / 2) (strlen s / 2) := by omega
    rw [htoNat, Function.iterate_add_apply]
    rw [shift_left_iterate_period s (strlen s) (strlen_le_length s)]

/-- Witness for claim C9 (amended), at the concrete buffer "012" and key
1: the period there is lcm 2 1 = 2 and key 3 encrypts like key 1; one
period of left steps is the identity on the buffer. -/
theorem shift_period_lcm_witness :
    (fun x => shift_left_once x 3)^[Nat.lcm ((3 + 1) / 2) (3 / 2)] [48, 49, 50, 0]
      = [48, 49, 50, 0] ∧
    cipher_encrypt (some [48, 49, 50, 0])
        (1 + (Nat.lcm ((strlen [48, 49, 50, 0] + 1) / 2) (strlen [48, 49, 50, 0] / 2) : Int))
      = cipher_encrypt (some [48, 49, 50, 0]) 1 :=
  ⟨(shift_period_lcm [48, 49, 50, 0] 1 (by decide) (by decide)).1 [48, 49, 50, 0] 3 (by decide),
    (shift_period_lcm [48, 49, 50, 0] 1 (by decide) (by decide)).2⟩

/-- Claim C10.  cipher_to_uppercase treats an absent buffer as a no-op;
on a present buffer it rewrites exactly the string portion (up to the
terminator) character by character, never changing the buffer length or
the string length; each ASCII lowercase byte moves down by 32 into the
uppercase range, and every byte outside 97..122 is left unchanged. -/
theorem to_uppercase_spec :
    cipher_to_uppercase none = none ∧
    (∀ s : List Nat, cipher_to_uppercase (some s) = some (uppercase_str s)) ∧
    (∀ s : List Nat, uppercase_str s
        = (s.takeWhile (fun c => c ≠ 0)).map toupper ++ s.dropWhile (fun c => c ≠ 0)) ∧
    (∀ s : List Nat, (uppercase_str s).length = s.length) ∧
    (∀ s : List Nat, strlen (uppercase_str s) = strlen s) ∧
    (∀ c : Nat, 97 ≤ c → c ≤ 122 → toupper c + 32 = c ∧ 65 ≤ toupper c ∧ toupper c ≤ 90) ∧
    (∀ c : Nat, c < 97 ∨ 122 < c → toupper c = c) := by
  refine ⟨rfl, fun s => rfl, uppercase_str_struct, uppercase_str_length,
    uppercase_str_strlen, ?_, ?_⟩
  · intro c hc1 hc2
    unfold toupper
    rw [if_pos ⟨hc1, hc2⟩]
    omega
  · intro c hc
    unfold toupper
    rw [if_neg (by omega)]

/-- Witness for claim C10, at the byte of the letter a and the byte of
the digit 0. -/
theorem to_uppercase_spec_witness :
    (toupper 97 + 32 = 97 ∧ 65 ≤ toupper 97 ∧ toupper 97 ≤ 90) ∧ toupper 48 = 48 :=
  ⟨to_uppercase_spec.2.2.2.2.2.1 97 (by decide) (by decide),
    to_uppercase_spec.2.2.2.2.2.2 48 (by decide)⟩

end Cipher
